import Mathlib

/-!
Shallow embedding of the mini search engine (src/MiniSearchEngine.cpp).

Text is modelled as lists of characters (ASCII semantics for the ctype
predicates).  The unordered maps and sets of the source are modelled as
association lists kept in first-insertion order; iteration order of the
original containers is unspecified, and none of the properties proved
below depend on the order chosen here.  Floating point scores are
modelled as real numbers, with the natural logarithm of Mathlib.
-/

abbrev Str := List Char

def str (s : String) : Str := s.toList

/-- ASCII model of isalpha. -/
def isAlphaC (c : Char) : Bool :=
  decide ((65 ≤ c.toNat ∧ c.toNat ≤ 90) ∨ (97 ≤ c.toNat ∧ c.toNat ≤ 122))

/-- ASCII model of isdigit. -/
def isDigitC (c : Char) : Bool :=
  decide (48 ≤ c.toNat ∧ c.toNat ≤ 57)

/-- ASCII model of isalnum. -/
def isAlnumC (c : Char) : Bool := isAlphaC c || isDigitC c

/-- ASCII model of isspace: space, tab, newline, vertical tab, form feed, carriage return. -/
def isSpaceC (c : Char) : Bool :=
  decide (c.toNat = 32 ∨ (9 ≤ c.toNat ∧ c.toNat ≤ 13))

/-- ASCII model of tolower. -/
def toLowerC (c : Char) : Char :=
  if 65 ≤ c.toNat ∧ c.toNat ≤ 90 then Char.ofNat (c.toNat + 32) else c

/-- The per-character action of the loop body of preprocessText. -/
def normChar (c : Char) : Char :=
  if isAlnumC c || isSpaceC c then toLowerC c else ' '

/-- MiniSearchEngine::preprocessText: keep alphanumerics and whitespace
(lowercased), replace every other character by a single space. -/
def preprocessText : Str → Str
  | [] => []
  | c :: cs => normChar c :: preprocessText cs

/-- Accumulating splitter: whitespace-delimited field extraction, as done by
reading words from an istringstream. -/
def fieldsAux (cur : Str) : Str → List Str
  | [] => if cur = [] then [] else [cur.reverse]
  | c :: cs =>
    if isSpaceC c then
      if cur = [] then fieldsAux [] cs else cur.reverse :: fieldsAux [] cs
    else fieldsAux (c :: cur) cs

def splitWS (l : Str) : List Str := fieldsAux [] l

/-- MiniSearchEngine::tokenize: normalize, split on whitespace, keep words of
length strictly greater than 2. -/
def tokenize (text : Str) : List Str :=
  (splitWS (preprocessText text)).filter (fun w => 2 < w.length)

structure Document where
  id : ℕ
  title : Str
  content : Str
  url : Str
deriving DecidableEq

def defaultDoc : Document := ⟨0, [], [], []⟩

structure SearchResult where
  documentId : ℕ
  score : ℝ
  title : Str
  snippet : Str
  url : Str

/-- The four data structures owned by MiniSearchEngine, with each
unordered_map (and the unordered_set posting sets) modelled as an
insertion-ordered association list. -/
structure Engine where
  documents : List Document
  invertedIndex : List (Str × List ℕ)
  termFrequency : List (ℕ × List (Str × ℕ))
  documentFrequency : List (Str × ℕ)
deriving DecidableEq

def emptyEngine : Engine := ⟨[], [], [], []⟩

/-- Association-list lookup (the find operation of unordered_map). -/
def lookupA {α β : Type} [DecidableEq α] (k : α) : List (α × β) → Option β
  | [] => none
  | p :: l => if k = p.1 then some p.2 else lookupA k l

/-- The effect of m[k]++ on a counting map: increment if present, else
insert with count 1. -/
def bump {α : Type} [DecidableEq α] (k : α) : List (α × ℕ) → List (α × ℕ)
  | [] => [(k, 1)]
  | p :: l => if k = p.1 then (p.1, p.2 + 1) :: l else p :: bump k l

/-- unordered_set insertion, with the set held as a duplicate-free list. -/
def insertSet (d : ℕ) (s : List ℕ) : List ℕ :=
  if d ∈ s then s else s ++ [d]

/-- The effect of invertedIndex[token].insert(docId). -/
def addPost (k : Str) (d : ℕ) : List (Str × List ℕ) → List (Str × List ℕ)
  | [] => [(k, [d])]
  | p :: l => if k = p.1 then (p.1, insertSet d p.2) :: l else p :: addPost k d l

/-- The effect of termFrequency[docId][token]++. -/
def bumpTF (d : ℕ) (k : Str) : List (ℕ × List (Str × ℕ)) → List (ℕ × List (Str × ℕ))
  | [] => [(d, [(k, 1)])]
  | p :: l => if d = p.1 then (p.1, bump k p.2) :: l else p :: bumpTF d k l

/-- Posting set of a term (empty when the term has no index entry). -/
def II (e : Engine) (t : Str) : List ℕ :=
  (lookupA t e.invertedIndex).getD []

/-- Recorded term frequency of a term inside a document (0 when absent). -/
def TF (e : Engine) (d : ℕ) (t : Str) : ℕ :=
  (lookupA t ((lookupA d e.termFrequency).getD [])).getD 0

/-- Recorded document frequency of a term (0 when absent). -/
def DF (e : Engine) (t : Str) : ℕ :=
  (lookupA t e.documentFrequency).getD 0

/-- The body of the indexing loop of addDocument: one token is posted to the
inverted index and counted in the term-frequency row of the new document. -/
def indexTok (d : ℕ) (e : Engine) (t : Str) : Engine :=
  { e with invertedIndex := addPost t d e.invertedIndex,
           termFrequency := bumpTF d t e.termFrequency }

def indexToks (d : ℕ) (e : Engine) (ts : List Str) : Engine :=
  ts.foldl (indexTok d) e

/-- Fold of documentFrequency[term]++ over a list of terms. -/
def bumpAll (m : List (Str × ℕ)) (ts : List Str) : List (Str × ℕ) :=
  ts.foldl (fun acc t => bump t acc) m

/-- The combined token stream of addDocument: title tokens twice, then
content tokens. -/
def allToks (title content : Str) : List Str :=
  tokenize title ++ tokenize title ++ tokenize content

/-- MiniSearchEngine::addDocument.  The combined token stream duplicates the
title tokens; the uniqueTerms set of the source is modelled by dedup of the
combined stream (the per-term effect on documentFrequency is one increment
per distinct term, independent of iteration order). -/
def addDocument (e : Engine) (title content url : Str) : Engine :=
  let docId := e.documents.length
  let e1 : Engine := { e with documents := e.documents ++ [⟨docId, title, content, url⟩] }
  let e2 := indexToks docId e1 (allToks title content)
  { e2 with documentFrequency := bumpAll e2.documentFrequency (allToks title content).dedup }

/-- Engine states reachable by a sequence of addDocument calls from the
empty engine. -/
inductive Reachable : Engine → Prop
  | empty : Reachable emptyEngine
  | add (e : Engine) (t c u : Str) : Reachable e → Reachable (addDocument e t c u)

/-- Index of the first occurrence of a character in a string
(string::find for a single character). -/
def findChar (c : Char) : Str → Option ℕ
  | [] => none
  | a :: l => if a = c then some 0 else (findChar c l).map (· + 1)

/-- The per-line parsing of MiniSearchEngine::loadFromFile: split on the
first two pipe characters, or skip the line when it has no pipe. -/
def splitLine (line : Str) : Option (Str × Str × Str) :=
  match findChar '|' line with
  | none => none
  | some p1 =>
    let t := line.take p1
    let rest := line.drop (p1 + 1)
    match findChar '|' rest with
    | none => some (t, rest, [])
    | some p2 => some (t, rest.take p2, rest.drop (p2 + 1))

def loadLine (e : Engine) (line : Str) : Engine :=
  match splitLine line with
  | none => e
  | some (t, c, u) => addDocument e t c u

/-- MiniSearchEngine::loadFromFile, over the already-read lines of the file. -/
def loadBatch (e : Engine) (lines : List Str) : Engine :=
  lines.foldl loadLine e

/-- Index of the first occurrence of a pattern as a substring
(string::find for a string argument). -/
def findSub (pat : Str) : Str → Option ℕ
  | [] => if pat = [] then some 0 else none
  | c :: rest =>
    if pat.isPrefixOf (c :: rest) then some 0
    else (findSub pat rest).map (· + 1)

/-- The bestPos scan of generateSnippet: the match position of the first
query term (in query order) that occurs in the text, 0 otherwise. -/
def bestPos (lowerText : Str) : List Str → ℕ
  | [] => 0
  | t :: ts =>
    match findSub t lowerText with
    | some p => p
    | none => bestPos lowerText ts

def snippetStart (doc : Document) (qts : List Str) : ℕ :=
  let bp := bestPos (preprocessText doc.content) qts
  if 75 < bp then bp - 75 else 0

def snippetLen (doc : Document) (qts : List Str) : ℕ :=
  min 150 (doc.content.length - snippetStart doc qts)

/-- The windowed substring of the original content, before ellipses. -/
def snippetCore (doc : Document) (qts : List Str) : Str :=
  (doc.content.drop (snippetStart doc qts)).take (snippetLen doc qts)

def dots : Str := ['.', '.', '.']

/-- MiniSearchEngine::generateSnippet. -/
def generateSnippet (doc : Document) (qts : List Str) : Str :=
  (if 0 < snippetStart doc qts then dots else []) ++ snippetCore doc qts ++
    (if snippetStart doc qts + snippetLen doc qts < doc.content.length then dots else [])

/-- The outer operator access termFrequency[docId]: returns the row and the
possibly extended table (a fresh empty row is appended when the key is new). -/
def getRow (d : ℕ) : List (ℕ × List (Str × ℕ)) → List (Str × ℕ) × List (ℕ × List (Str × ℕ))
  | [] => ([], [(d, [])])
  | p :: l =>
    if d = p.1 then (p.2, p :: l)
    else
      let r := getRow d l
      (r.1, p :: r.2)

/-- The operator access documentFrequency[term]: returns the count and the
possibly extended table (a zero entry is appended when the key is new). -/
def getVal (k : Str) : List (Str × ℕ) → ℕ × List (Str × ℕ)
  | [] => (0, [(k, 0)])
  | p :: l =>
    if k = p.1 then (p.2, p :: l)
    else
      let r := getVal k l
      (r.1, p :: r.2)

/-- MiniSearchEngine::calculateTFIDF, with the incidental map mutations of
the bracket operators made explicit: dereferencing termFrequency[docId]
creates an empty row for an unknown document, and documentFrequency[term]
creates a zero entry for an unknown term. -/
noncomputable def calculateTFIDF (e : Engine) (term : Str) (docId : ℕ) : ℝ × Engine :=
  let r := getRow docId e.termFrequency
  let e1 : Engine := { e with termFrequency := r.2 }
  match lookupA term r.1 with
  | none => (0, e1)
  | some tfv =>
    let dv := getVal term e1.documentFrequency
    let e2 : Engine := { e1 with documentFrequency := dv.2 }
    ((tfv : ℝ) * Real.log ((e2.documents.length : ℝ) / (dv.1 : ℝ)), e2)

/-- The effect of scores[docId] += v on the per-query accumulator map. -/
def addTo (d : ℕ) (v : ℝ) : List (ℕ × ℝ) → List (ℕ × ℝ)
  | [] => [(d, v)]
  | p :: l => if d = p.1 then (p.1, p.2 + v) :: l else p :: addTo d v l

noncomputable def tallyDoc (term : Str) (acc : List (ℕ × ℝ) × Engine) (d : ℕ) :
    List (ℕ × ℝ) × Engine :=
  let r := calculateTFIDF acc.2 term d
  (addTo d r.1 acc.1, r.2)

/-- One iteration of the query-term loop of search: skip terms absent from
the inverted index, otherwise accumulate a TF-IDF contribution for every
document of the posting set. -/
noncomputable def tallyTerm (acc : List (ℕ × ℝ) × Engine) (term : Str) :
    List (ℕ × ℝ) × Engine :=
  match lookupA term acc.2.invertedIndex with
  | none => acc
  | some posting => posting.foldl (tallyDoc term) acc

noncomputable def searchScores (e : Engine) (terms : List Str) :
    List (ℕ × ℝ) × Engine :=
  terms.foldl tallyTerm ([], e)

/-- Materialization of one SearchResult from one accumulated score entry. -/
def mkResult (e : Engine) (qts : List Str) (p : ℕ × ℝ) : SearchResult :=
  let doc := e.documents.getD p.1 defaultDoc
  ⟨p.1, p.2, doc.title, generateSnippet doc qts, doc.url⟩

/-- Ordered insertion with respect to a strict comparator: the element goes
in front of the first list element it beats. -/
def insertBy {α : Type} (f : α → α → Bool) (a : α) : List α → List α
  | [] => [a]
  | b :: l => if f a b then a :: b :: l else b :: insertBy f a l

/-- Comparator-based sort (the std::sort call, modelled as insertion sort:
any comparator-correct sort yields a score-sorted list). -/
def sortBy {α : Type} (f : α → α → Bool) : List α → List α
  | [] => []
  | a :: l => insertBy f a (sortBy f l)

/-- The comparator passed to std::sort: a precedes b when its score is
strictly larger. -/
noncomputable def cmpRes (a b : SearchResult) : Bool :=
  @decide (b.score < a.score) (Classical.propDecidable _)

/-- The value of static_cast of an int to the unsigned 64-bit size_t. -/
def sizeT (m : ℤ) : ℕ := (m % (2 ^ 64 : ℤ)).toNat

/-- The scoring, materialization and sorting part of search, before the
truncation step; also returns the threaded engine state. -/
noncomputable def searchAll (e : Engine) (q : Str) : List SearchResult × Engine :=
  let qts := tokenize q
  let p := searchScores e qts
  (sortBy cmpRes (p.1.map (mkResult p.2 qts)), p.2)

/-- MiniSearchEngine::search: the resize call fires only when the result
count exceeds the size_t cast of maxResults. -/
noncomputable def search (e : Engine) (q : Str) (m : ℤ) : List SearchResult × Engine :=
  let p := searchAll e q
  (if sizeT m < p.1.length then p.1.take (sizeT m) else p.1, p.2)

/-- Non-increasing score order on search results. -/
def scoreGE (a b : SearchResult) : Prop := b.score ≤ a.score

/-- A one-document engine: title cat dog, content the cat sat, no url. -/
def eCat : Engine := addDocument emptyEngine (str "cat dog") (str "the cat sat") []

/-- A document whose content is 152 characters long with its only query
match near the end. -/
def longDoc : Document := ⟨0, [], List.replicate 148 'q' ++ str " abc", []⟩

/-- The inductive invariant of the index structures: the consistency facts
of the specification together with the bookkeeping facts (freshness of the
next identifier, positivity of stored counts, nonempty posting sets, dense
identifiers) needed for preservation. -/
structure EngineInv (e : Engine) : Prop where
  memIff : ∀ d t, d ∈ II e t ↔ 0 < TF e d t
  dfEq : ∀ t, DF e t = (II e t).length
  nodupPost : ∀ t, (II e t).Nodup
  postLt : ∀ t d, d ∈ II e t → d < e.documents.length
  rowDom : ∀ d, (lookupA d e.termFrequency).isSome = true → d < e.documents.length
  rowPos : ∀ d row, lookupA d e.termFrequency = some row → ∀ p ∈ row, 0 < p.2
  postNE : ∀ t s, lookupA t e.invertedIndex = some s → s ≠ []
  idsEq : e.documents.map Document.id = List.range e.documents.length

section AssocLemmas

variable {α β : Type} [DecidableEq α]

theorem lookupA_bump (k j : α) (m : List (α × ℕ)) :
    lookupA j (bump k m) =
      if j = k then some ((lookupA k m).getD 0 + 1) else lookupA j m := by
  induction m with
  | nil =>
    by_cases h : j = k <;> simp [bump, lookupA, h]
  | cons p l ih =>
    by_cases hk : k = p.1
    · subst hk
      by_cases hj : j = p.1 <;> simp [bump, lookupA, hj]
    · by_cases hj : j = p.1
      · have hjk : ¬ j = k := fun h => hk (h ▸ hj ▸ rfl)
        have hpk : ¬ p.1 = k := fun h => hk h.symm
        simp [bump, lookupA, hk, hj, hjk, hpk]
      · simp [bump, lookupA, hk, hj, ih]

theorem bump_pos (k : α) (m : List (α × ℕ))
    (h : ∀ p ∈ m, 0 < p.2) : ∀ p ∈ bump k m, 0 < p.2 := by
  induction m with
  | nil =>
    intro p hp
    simp [bump] at hp
    simp [hp]
  | cons q l ih =>
    intro p hp
    by_cases hk : k = q.1
    · simp [bump, hk] at hp
      rcases hp with hp | hp
      · have hq := h q (by simp)
        subst hp
        simp
      · exact h p (by simp [hp])
    · simp [bump, hk] at hp
      rcases hp with hp | hp
      · exact h p (by simp [hp])
      · exact ih (fun r hr => h r (by simp [hr])) p hp

theorem lookupA_addPost (k : Str) (d : ℕ) (j : Str) (ii : List (Str × List ℕ)) :
    lookupA j (addPost k d ii) =
      if j = k then some (insertSet d ((lookupA k ii).getD [])) else lookupA j ii := by
  induction ii with
  | nil =>
    by_cases h : j = k <;> simp [addPost, lookupA, h, insertSet]
  | cons p l ih =>
    by_cases hk : k = p.1
    · subst hk
      by_cases hj : j = p.1 <;> simp [addPost, lookupA, hj]
    · by_cases hj : j = p.1
      · have hjk : ¬ j = k := fun h => hk (h ▸ hj ▸ rfl)
        have hpk : ¬ p.1 = k := fun h => hk h.symm
        simp [addPost, lookupA, hk, hj, hjk, hpk]
      · simp [addPost, lookupA, hk, hj, ih]

theorem lookupA_bumpTF (d : ℕ) (k : Str) (j : ℕ) (tf : List (ℕ × List (Str × ℕ))) :
    lookupA j (bumpTF d k tf) =
      if j = d then some (bump k ((lookupA d tf).getD [])) else lookupA j tf := by
  induction tf with
  | nil =>
    by_cases h : j = d <;> simp [bumpTF, lookupA, h, bump]
  | cons p l ih =>
    by_cases hk : d = p.1
    · subst hk
      by_cases hj : j = p.1 <;> simp [bumpTF, lookupA, hj]
    · by_cases hj : j = p.1
      · have hjk : ¬ j = d := fun h => hk (h ▸ hj ▸ rfl)
        have hpk : ¬ p.1 = d := fun h => hk h.symm
        simp [bumpTF, lookupA, hk, hj, hjk, hpk]
      · simp [bumpTF, lookupA, hk, hj, ih]

theorem getRow_of_lookup {d : ℕ} {tf : List (ℕ × List (Str × ℕ))} {row : List (Str × ℕ)}
    (h : lookupA d tf = some row) : getRow d tf = (row, tf) := by
  induction tf with
  | nil => simp [lookupA] at h
  | cons p l ih =>
    by_cases hd : d = p.1
    · simp [lookupA, hd] at h
      simp [getRow, hd, h]
    · simp [lookupA, hd] at h
      simp [getRow, hd, ih h]

theorem getVal_of_lookup {k : Str} {m : List (Str × ℕ)} {v : ℕ}
    (h : lookupA k m = some v) : getVal k m = (v, m) := by
  induction m with
  | nil => simp [lookupA] at h
  | cons p l ih =>
    by_cases hk : k = p.1
    · simp [lookupA, hk] at h
      simp [getVal, hk, h]
    · simp [lookupA, hk] at h
      simp [getVal, hk, ih h]

theorem mem_insertSet (x d : ℕ) (s : List ℕ) :
    x ∈ insertSet d s ↔ x ∈ s ∨ x = d := by
  by_cases h : d ∈ s
  · constructor
    · intro hx
      exact Or.inl (by simpa [insertSet, h] using hx)
    · intro hx
      rcases hx with hx | hx
      · simp [insertSet, h, hx]
      · simp [insertSet, h, hx]
  · simp [insertSet, h, or_comm]

theorem nodup_insertSet (d : ℕ) (s : List ℕ) (h : s.Nodup) :
    (insertSet d s).Nodup := by
  by_cases hd : d ∈ s
  · rw [insertSet, if_pos hd]
    exact h
  · simp only [insertSet, if_neg hd]
    simp [List.nodup_append, h, hd]

theorem length_insertSet_of_not_mem {d : ℕ} {s : List ℕ} (h : d ∉ s) :
    (insertSet d s).length = s.length + 1 := by
  simp [insertSet, h]

theorem insertSet_ne_nil (d : ℕ) (s : List ℕ) : insertSet d s ≠ [] := by
  by_cases h : d ∈ s
  · have hs : s ≠ [] := by
      rintro rfl
      simp at h
    simpa [insertSet, h] using hs
  · simp [insertSet, h]

theorem mem_of_lookupA {α β : Type} [DecidableEq α] {k : α} {v : β} {m : List (α × β)}
    (h : lookupA k m = some v) : (k, v) ∈ m := by
  induction m with
  | nil => simp [lookupA] at h
  | cons p l ih =>
    by_cases hk : k = p.1
    · simp [lookupA, hk] at h
      subst hk
      subst h
      simp
    · simp [lookupA, hk] at h
      simp [ih h]

theorem insertSet_idem (d : ℕ) (s : List ℕ) :
    insertSet d (insertSet d s) = insertSet d s := by
  have hd : d ∈ insertSet d s := (mem_insertSet d d s).mpr (Or.inr rfl)
  rw [insertSet, if_pos hd]

end AssocLemmas

theorem indexToks_nil (d : ℕ) (e : Engine) : indexToks d e [] = e := rfl

theorem indexToks_cons (d : ℕ) (e : Engine) (t : Str) (ts : List Str) :
    indexToks d e (t :: ts) = indexToks d (indexTok d e t) ts := rfl

theorem indexToks_documents (d : ℕ) (e : Engine) (ts : List Str) :
    (indexToks d e ts).documents = e.documents := by
  induction ts generalizing e with
  | nil => rfl
  | cons t ts ih =>
    rw [indexToks_cons, ih]
    rfl

theorem indexToks_df (d : ℕ) (e : Engine) (ts : List Str) :
    (indexToks d e ts).documentFrequency = e.documentFrequency := by
  induction ts generalizing e with
  | nil => rfl
  | cons t ts ih =>
    rw [indexToks_cons, ih]
    rfl

theorem lookupII_indexTok (d : ℕ) (e : Engine) (tok t : Str) :
    lookupA t (indexTok d e tok).invertedIndex =
      if t = tok then some (insertSet d (II e t)) else lookupA t e.invertedIndex := by
  show lookupA t (addPost tok d e.invertedIndex) = _
  rw [lookupA_addPost]
  by_cases h : t = tok <;> simp [h, II]

theorem lookupII_indexToks (d : ℕ) (e : Engine) (ts : List Str) (t : Str) :
    lookupA t (indexToks d e ts).invertedIndex =
      if t ∈ ts then some (insertSet d (II e t)) else lookupA t e.invertedIndex := by
  induction ts generalizing e with
  | nil => simp [indexToks_nil]
  | cons tok ts ih =>
    rw [indexToks_cons, ih]
    by_cases hmem : t ∈ ts
    · have hII : II (indexTok d e tok) t = if t = tok then insertSet d (II e t) else II e t := by
        rw [II, lookupII_indexTok]
        by_cases h : t = tok <;> simp [h, II]
      rw [if_pos hmem, if_pos (by simp [hmem]), hII]
      by_cases h : t = tok
      · simp [h, insertSet_idem]
      · simp [h, insertSet_idem]
    · rw [if_neg hmem, lookupII_indexTok]
      by_cases h : t = tok
      · simp [h, List.mem_cons, hmem]
      · simp [h, List.mem_cons, hmem]

theorem II_indexToks (d : ℕ) (e : Engine) (ts : List Str) (t : Str) :
    II (indexToks d e ts) t = if t ∈ ts then insertSet d (II e t) else II e t := by
  rw [II, lookupII_indexToks]
  by_cases h : t ∈ ts <;> simp [h, II]

theorem TF_indexTok (d : ℕ) (e : Engine) (tok : Str) (j : ℕ) (t : Str) :
    TF (indexTok d e tok) j t =
      TF e j t + if j = d ∧ t = tok then 1 else 0 := by
  show (lookupA t ((lookupA j (bumpTF d tok e.termFrequency)).getD [])).getD 0 = _
  rw [lookupA_bumpTF]
  by_cases hj : j = d
  · subst hj
    rw [if_pos rfl, Option.getD_some, lookupA_bump]
    by_cases ht : t = tok
    · subst ht
      simp [TF]
    · simp [ht, TF]
  · simp [hj, TF]

theorem TF_indexToks (d : ℕ) (e : Engine) (ts : List Str) (j : ℕ) (t : Str) :
    TF (indexToks d e ts) j t = TF e j t + if j = d then ts.count t else 0 := by
  induction ts generalizing e with
  | nil => simp [indexToks_nil]
  | cons tok ts ih =>
    rw [indexToks_cons, ih, TF_indexTok]
    by_cases hj : j = d
    · subst hj
      by_cases ht : t = tok
      · simp [ht, List.count_cons]
        omega
      · simp [ht, List.count_cons]
    · simp [hj]

theorem row_isSome_indexToks (d : ℕ) (e : Engine) (ts : List Str) (j : ℕ) :
    (lookupA j (indexToks d e ts).termFrequency).isSome = true →
      j = d ∨ (lookupA j e.termFrequency).isSome = true := by
  induction ts generalizing e with
  | nil =>
    rw [indexToks_nil]
    exact fun h => Or.inr h
  | cons tok ts ih =>
    intro h
    rcases ih (indexTok d e tok) h with h1 | h1
    · exact Or.inl h1
    · show j = d ∨ _
      have : (lookupA j (bumpTF d tok e.termFrequency)).isSome = true := h1
      rw [lookupA_bumpTF] at this
      by_cases hj : j = d
      · exact Or.inl hj
      · right
        simpa [hj] using this

theorem rowPos_bumpTF (d : ℕ) (k : Str) (tf : List (ℕ × List (Str × ℕ)))
    (h : ∀ j row, lookupA j tf = some row → ∀ p ∈ row, 0 < p.2) :
    ∀ j row, lookupA j (bumpTF d k tf) = some row → ∀ p ∈ row, 0 < p.2 := by
  intro j row hrow
  rw [lookupA_bumpTF] at hrow
  by_cases hj : j = d
  · rw [if_pos hj] at hrow
    have hrow' : bump k ((lookupA d tf).getD []) = row := by
      simpa using hrow
    subst hrow'
    apply bump_pos
    cases hlk : lookupA d tf with
    | none => simp [hlk]
    | some r =>
      intro p hp
      exact h d r hlk p (by simpa [hlk] using hp)
  · rw [if_neg hj] at hrow
    exact h j row hrow

theorem rowPos_indexToks (d : ℕ) (e : Engine) (ts : List Str)
    (h : ∀ j row, lookupA j e.termFrequency = some row → ∀ p ∈ row, 0 < p.2) :
    ∀ j row, lookupA j (indexToks d e ts).termFrequency = some row →
      ∀ p ∈ row, 0 < p.2 := by
  induction ts generalizing e with
  | nil => simpa [indexToks_nil] using h
  | cons tok ts ih =>
    rw [indexToks_cons]
    exact ih (indexTok d e tok) (rowPos_bumpTF d tok e.termFrequency h)

theorem DF_bumpAll (m : List (Str × ℕ)) (ts : List Str) (t : Str) :
    (lookupA t (bumpAll m ts)).getD 0 = (lookupA t m).getD 0 + ts.count t := by
  induction ts generalizing m with
  | nil => simp [bumpAll]
  | cons tok ts ih =>
    have hstep : bumpAll m (tok :: ts) = bumpAll (bump tok m) ts := rfl
    rw [hstep, ih, lookupA_bump]
    by_cases ht : t = tok
    · subst ht
      simp [List.count_cons]
      omega
    · simp [ht, List.count_cons, Ne.symm ht]

theorem count_dedup_eq (l : List Str) (t : Str) :
    l.dedup.count t = if t ∈ l then 1 else 0 := by
  induction l with
  | nil => simp
  | cons a l ih =>
    by_cases ha : a ∈ l
    · rw [List.dedup_cons_of_mem ha, ih]
      by_cases ht : t = a
      · subst ht
        simp [ha]
      · simp [ht]
    · rw [List.dedup_cons_of_not_mem ha, List.count_cons, ih]
      by_cases ht : t = a
      · subst ht
        simp [ha]
      · simp [ht, Ne.symm ht]

theorem addDocument_documents (e : Engine) (tl c u : Str) :
    (addDocument e tl c u).documents =
      e.documents ++ [⟨e.documents.length, tl, c, u⟩] := by
  show (indexToks e.documents.length _ (allToks tl c)).documents = _
  rw [indexToks_documents]

theorem lookupII_addDocument (e : Engine) (tl c u : Str) (t : Str) :
    lookupA t (addDocument e tl c u).invertedIndex =
      if t ∈ allToks tl c then some (insertSet e.documents.length (II e t))
      else lookupA t e.invertedIndex := by
  show lookupA t (indexToks e.documents.length
      { e with documents := e.documents ++ [⟨e.documents.length, tl, c, u⟩] }
      (allToks tl c)).invertedIndex = _
  rw [lookupII_indexToks]
  rfl

theorem II_addDocument (e : Engine) (tl c u : Str) (t : Str) :
    II (addDocument e tl c u) t =
      if t ∈ allToks tl c then insertSet e.documents.length (II e t) else II e t := by
  rw [II, lookupII_addDocument]
  by_cases h : t ∈ allToks tl c <;> simp [h, II]

theorem TF_addDocument (e : Engine) (tl c u : Str) (j : ℕ) (t : Str) :
    TF (addDocument e tl c u) j t =
      TF e j t + if j = e.documents.length then (allToks tl c).count t else 0 := by
  show TF (indexToks e.documents.length
      { e with documents := e.documents ++ [⟨e.documents.length, tl, c, u⟩] }
      (allToks tl c)) j t = _
  rw [TF_indexToks]
  rfl

theorem DF_addDocument (e : Engine) (tl c u : Str) (t : Str) :
    DF (addDocument e tl c u) t =
      DF e t + if t ∈ allToks tl c then 1 else 0 := by
  show (lookupA t (bumpAll (indexToks e.documents.length
      { e with documents := e.documents ++ [⟨e.documents.length, tl, c, u⟩] }
      (allToks tl c)).documentFrequency (allToks tl c).dedup)).getD 0 = _
  rw [DF_bumpAll, indexToks_df, count_dedup_eq]
  rfl

theorem row_isSome_addDocument (e : Engine) (tl c u : Str) (j : ℕ) :
    (lookupA j (addDocument e tl c u).termFrequency).isSome = true →
      j = e.documents.length ∨ (lookupA j e.termFrequency).isSome = true := by
  intro h
  exact row_isSome_indexToks e.documents.length
    { e with documents := e.documents ++ [⟨e.documents.length, tl, c, u⟩] }
    (allToks tl c) j h

theorem rowPos_addDocument (e : Engine) (tl c u : Str)
    (h : ∀ j row, lookupA j e.termFrequency = some row → ∀ p ∈ row, 0 < p.2) :
    ∀ j row, lookupA j (addDocument e tl c u).termFrequency = some row →
      ∀ p ∈ row, 0 < p.2 := by
  exact rowPos_indexToks e.documents.length
    { e with documents := e.documents ++ [⟨e.documents.length, tl, c, u⟩] }
    (allToks tl c) h

theorem inv_empty : EngineInv emptyEngine := by
  refine ⟨?_, ?_, ?_, ?_, ?_, ?_, ?_, ?_⟩ <;>
    simp [emptyEngine, II, TF, DF, lookupA]

theorem TF_fresh (e : Engine) (h : EngineInv e) (t : Str) :
    TF e e.documents.length t = 0 := by
  cases hr : lookupA e.documents.length e.termFrequency with
  | none => simp [TF, hr, lookupA]
  | some row =>
    exfalso
    have := h.rowDom e.documents.length (by simp [hr])
    omega

theorem inv_addDocument (e : Engine) (tl c u : Str) (h : EngineInv e) :
    EngineInv (addDocument e tl c u) := by
  have hdocs := addDocument_documents e tl c u
  have hlen : (addDocument e tl c u).documents.length = e.documents.length + 1 := by
    rw [hdocs]
    simp
  have hTFfresh : ∀ t, TF e e.documents.length t = 0 := TF_fresh e h
  refine ⟨?_, ?_, ?_, ?_, ?_, ?_, ?_, ?_⟩
  · intro d t
    rw [II_addDocument, TF_addDocument]
    have hmi := h.memIff d t
    by_cases hmem : t ∈ allToks tl c
    · rw [if_pos hmem, mem_insertSet]
      by_cases hd : d = e.documents.length
      · subst hd
        rw [if_pos rfl, hTFfresh t]
        have hc : 0 < (allToks tl c).count t := List.count_pos_iff.mpr hmem
        constructor
        · intro _
          omega
        · intro _
          exact Or.inr rfl
      · rw [if_neg hd]
        constructor
        · rintro (hd' | h')
          · have := hmi.mp hd'
            omega
          · exact absurd h' hd
        · intro h0
          exact Or.inl (hmi.mpr (by omega))
    · rw [if_neg hmem]
      by_cases hd : d = e.documents.length
      · subst hd
        rw [if_pos rfl, hTFfresh t]
        have hc : (allToks tl c).count t = 0 := List.count_eq_zero_of_not_mem hmem
        constructor
        · intro hd'
          have := h.postLt t e.documents.length hd'
          omega
        · intro h0
          omega
      · rw [if_neg hd]
        constructor
        · intro hd'
          have := hmi.mp hd'
          omega
        · intro h0
          exact hmi.mpr (by omega)
  · intro t
    rw [DF_addDocument, II_addDocument]
    by_cases hmem : t ∈ allToks tl c
    · rw [if_pos hmem, if_pos hmem]
      have hNm : e.documents.length ∉ II e t := fun hm =>
        absurd (h.postLt t e.documents.length hm) (lt_irrefl _)
      rw [length_insertSet_of_not_mem hNm, h.dfEq t]
    · rw [if_neg hmem, if_neg hmem, h.dfEq t]
      omega
  · intro t
    rw [II_addDocument]
    by_cases hmem : t ∈ allToks tl c
    · rw [if_pos hmem]
      exact nodup_insertSet _ _ (h.nodupPost t)
    · rw [if_neg hmem]
      exact h.nodupPost t
  · intro t d hd
    rw [hlen]
    rw [II_addDocument] at hd
    by_cases hmem : t ∈ allToks tl c
    · rw [if_pos hmem] at hd
      rcases (mem_insertSet d e.documents.length (II e t)).mp hd with hd' | rfl
      · have := h.postLt t d hd'
        omega
      · omega
    · rw [if_neg hmem] at hd
      have := h.postLt t d hd
      omega
  · intro d hd
    rw [hlen]
    rcases row_isSome_addDocument e tl c u d hd with rfl | hs
    · omega
    · have := h.rowDom d hs
      omega
  · exact rowPos_addDocument e tl c u h.rowPos
  · intro t s hs
    rw [lookupII_addDocument] at hs
    by_cases hmem : t ∈ allToks tl c
    · rw [if_pos hmem] at hs
      have hs' : insertSet e.documents.length (II e t) = s := by
        injection hs
      rw [← hs']
      exact insertSet_ne_nil _ _
    · rw [if_neg hmem] at hs
      exact h.postNE t s hs
  · rw [hdocs]
    simp [h.idsEq, List.range_succ]

theorem reachable_inv {e : Engine} (h : Reachable e) : EngineInv e := by
  induction h with
  | empty => exact inv_empty
  | add e t c u hr ih => exact inv_addDocument e t c u ih

theorem getRow_fst (d : ℕ) (tf : List (ℕ × List (Str × ℕ))) :
    (getRow d tf).1 = (lookupA d tf).getD [] := by
  induction tf with
  | nil => rfl
  | cons p l ih =>
    by_cases hd : d = p.1 <;> simp [getRow, lookupA, hd, ih]

theorem TF_pos_lookup {e : Engine} {d : ℕ} {t : Str} (h : 0 < TF e d t) :
    ∃ row, lookupA d e.termFrequency = some row ∧ lookupA t row = some (TF e d t) := by
  cases hr : lookupA d e.termFrequency with
  | none =>
    exfalso
    rw [TF, hr] at h
    simp [lookupA] at h
  | some row =>
    cases hv : lookupA t row with
    | none =>
      exfalso
      rw [TF, hr] at h
      simp [hv] at h
    | some v =>
      refine ⟨row, rfl, ?_⟩
      rw [TF, hr]
      simp [hv]

theorem DF_pos_lookup {e : Engine} {t : Str} (h : 0 < DF e t) :
    lookupA t e.documentFrequency = some (DF e t) := by
  cases hr : lookupA t e.documentFrequency with
  | none =>
    exfalso
    rw [DF, hr] at h
    simp at h
  | some v =>
    rw [DF, hr]
    simp

theorem DF_pos_of_mem (e : Engine) (h : EngineInv e) {t : Str} {d : ℕ}
    (hd : d ∈ II e t) : 0 < DF e t := by
  rw [h.dfEq t]
  exact List.length_pos.mpr (List.ne_nil_of_mem hd)

/-- For a document of the posting set of a term of a consistent engine, the
TF-IDF computation finds all entries in place: it returns the textbook value
and leaves the engine unchanged. -/
theorem calculateTFIDF_mem (e : Engine) (h : EngineInv e) (t : Str) (d : ℕ)
    (hd : d ∈ II e t) :
    calculateTFIDF e t d =
      ((TF e d t : ℝ) * Real.log ((e.documents.length : ℝ) / (DF e t : ℝ)), e) := by
  have hTF : 0 < TF e d t := (h.memIff d t).mp hd
  obtain ⟨row, hrow, hval⟩ := TF_pos_lookup hTF
  have hdf := DF_pos_lookup (DF_pos_of_mem e h hd)
  simp [calculateTFIDF, getRow_of_lookup hrow, hval, getVal_of_lookup hdf]

theorem keys_addTo (d : ℕ) (v : ℝ) (s : List (ℕ × ℝ)) (x : ℕ) :
    x ∈ (addTo d v s).map Prod.fst ↔ x ∈ s.map Prod.fst ∨ x = d := by
  induction s with
  | nil => simp [addTo]
  | cons p l ih =>
    by_cases hd : d = p.1
    · subst hd
      simp [addTo]
      tauto
    · simp [addTo, hd, ih]
      tauto

theorem tallyDoc_foldl (e : Engine) (h : EngineInv e) (t : Str) (posting : List ℕ)
    (hsub : ∀ x ∈ posting, x ∈ II e t) (acc : List (ℕ × ℝ)) :
    (posting.foldl (tallyDoc t) (acc, e)).2 = e ∧
    (∀ x, x ∈ (posting.foldl (tallyDoc t) (acc, e)).1.map Prod.fst ↔
      x ∈ acc.map Prod.fst ∨ x ∈ posting) := by
  induction posting generalizing acc with
  | nil => simp
  | cons d ds ih =>
    have hd : d ∈ II e t := hsub d (by simp)
    have hstep : tallyDoc t (acc, e) d =
        (addTo d ((TF e d t : ℝ) * Real.log ((e.documents.length : ℝ) / (DF e t : ℝ))) acc,
         e) := by
      simp [tallyDoc, calculateTFIDF_mem e h t d hd]
    rw [List.foldl_cons, hstep]
    obtain ⟨h1, h2⟩ := ih (fun x hx => hsub x (by simp [hx])) (addTo d _ acc)
    refine ⟨h1, fun x => ?_⟩
    rw [h2 x, keys_addTo]
    simp [List.mem_cons]
    tauto

theorem searchScores_spec (e : Engine) (h : EngineInv e) (ts : List Str) :
    (searchScores e ts).2 = e ∧
    (∀ x, x ∈ (searchScores e ts).1.map Prod.fst ↔ ∃ t ∈ ts, x ∈ II e t) := by
  suffices H : ∀ acc : List (ℕ × ℝ), (ts.foldl tallyTerm (acc, e)).2 = e ∧
      (∀ x, x ∈ (ts.foldl tallyTerm (acc, e)).1.map Prod.fst ↔
        x ∈ acc.map Prod.fst ∨ ∃ t ∈ ts, x ∈ II e t) by
    obtain ⟨h1, h2⟩ := H []
    exact ⟨h1, fun x => by simpa using h2 x⟩
  induction ts with
  | nil =>
    intro acc
    simp
  | cons t ts ih =>
    intro acc
    cases hlk : lookupA t e.invertedIndex with
    | none =>
      have hstep : tallyTerm (acc, e) t = (acc, e) := by
        simp [tallyTerm, hlk]
      rw [List.foldl_cons, hstep]
      obtain ⟨h1, h2⟩ := ih acc
      have hII : II e t = [] := by simp [II, hlk]
      refine ⟨h1, fun x => ?_⟩
      rw [h2 x]
      simp [hII]
    | some posting =>
      have hpost : posting = II e t := by simp [II, hlk]
      have hstep : tallyTerm (acc, e) t = posting.foldl (tallyDoc t) (acc, e) := by
        simp [tallyTerm, hlk]
      obtain ⟨hp1, hp2⟩ := tallyDoc_foldl e h t posting
        (by rw [hpost]; exact fun x hx => hx) acc
      have hpair : posting.foldl (tallyDoc t) (acc, e)
          = ((posting.foldl (tallyDoc t) (acc, e)).1, e) := by
        conv_lhs => rw [← Prod.mk.eta (p := posting.foldl (tallyDoc t) (acc, e))]
        rw [hp1]
      rw [List.foldl_cons, hstep, hpair]
      obtain ⟨h1, h2⟩ := ih ((posting.foldl (tallyDoc t) (acc, e)).1)
      refine ⟨h1, fun x => ?_⟩
      rw [h2 x, hp2 x]
      rw [hpost]
      simp [List.mem_cons]
      tauto

theorem mem_insertBy {α : Type} (f : α → α → Bool) (a x : α) (l : List α) :
    x ∈ insertBy f a l ↔ x = a ∨ x ∈ l := by
  induction l with
  | nil => simp [insertBy]
  | cons b l ih =>
    by_cases hf : f a b
    · simp [insertBy, hf]
    · simp [insertBy, hf, ih]
      tauto

theorem mem_sortBy {α : Type} (f : α → α → Bool) (x : α) (l : List α) :
    x ∈ sortBy f l ↔ x ∈ l := by
  induction l with
  | nil => simp [sortBy]
  | cons a l ih =>
    simp [sortBy, mem_insertBy, ih]

theorem cmpRes_true {a b : SearchResult} (h : cmpRes a b = true) :
    b.score < a.score := by
  simpa [cmpRes] using h

theorem cmpRes_false {a b : SearchResult} (h : ¬ cmpRes a b = true) :
    a.score ≤ b.score := by
  simp [cmpRes] at h
  exact h

theorem pairwise_insertBy (a : SearchResult) (l : List SearchResult)
    (h : l.Pairwise scoreGE) : (insertBy cmpRes a l).Pairwise scoreGE := by
  induction l with
  | nil => simp [insertBy]
  | cons b l ih =>
    rw [List.pairwise_cons] at h
    obtain ⟨hb, hl⟩ := h
    by_cases hf : cmpRes a b
    · rw [insertBy, if_pos hf]
      have hab : scoreGE a b := le_of_lt (cmpRes_true hf)
      refine List.Pairwise.cons ?_ (List.Pairwise.cons hb hl)
      intro x hx
      rcases List.mem_cons.mp hx with rfl | hx
      · exact hab
      · exact le_trans (hb x hx) hab
    · rw [insertBy, if_neg hf]
      refine List.Pairwise.cons ?_ (ih hl)
      intro x hx
      rcases (mem_insertBy cmpRes a x l).mp hx with rfl | hx
      · exact cmpRes_false hf
      · exact hb x hx

theorem pairwise_sortBy (l : List SearchResult) :
    (sortBy cmpRes l).Pairwise scoreGE := by
  induction l with
  | nil => simp [sortBy]
  | cons a l ih => exact pairwise_insertBy a (sortBy cmpRes l) ih

theorem searchAll_snd (e : Engine) (h : EngineInv e) (q : Str) :
    (searchAll e q).2 = e := by
  show (searchScores e (tokenize q)).2 = e
  exact (searchScores_spec e h (tokenize q)).1

theorem search_snd (e : Engine) (h : EngineInv e) (q : Str) (m : ℤ) :
    (search e q m).2 = e := by
  show (searchAll e q).2 = e
  exact searchAll_snd e h q

theorem searchAll_keys (e : Engine) (h : EngineInv e) (q : Str) (x : ℕ) :
    x ∈ (searchAll e q).1.map SearchResult.documentId ↔
      ∃ t ∈ tokenize q, x ∈ II e t := by
  obtain ⟨h1, h2⟩ := searchScores_spec e h (tokenize q)
  have hform : (searchAll e q).1 =
      sortBy cmpRes ((searchScores e (tokenize q)).1.map
        (mkResult (searchScores e (tokenize q)).2 (tokenize q))) := rfl
  rw [hform, ← h2 x]
  constructor
  · intro hx
    obtain ⟨r, hr, hrx⟩ := List.mem_map.mp hx
    have hr' := (mem_sortBy _ r _).mp hr
    obtain ⟨p, hp, hpr⟩ := List.mem_map.mp hr'
    have : r.documentId = p.1 := by
      rw [← hpr]
      rfl
    exact List.mem_map.mpr ⟨p, hp, by rw [← hrx, this]⟩
  · intro hx
    obtain ⟨p, hp, hpx⟩ := List.mem_map.mp hx
    refine List.mem_map.mpr ⟨mkResult (searchScores e (tokenize q)).2 (tokenize q) p,
      (mem_sortBy _ _ _).mpr (List.mem_map.mpr ⟨p, hp, rfl⟩), ?_⟩
    rw [← hpx]
    rfl

theorem preprocessText_eq_map (text : Str) :
    preprocessText text = text.map normChar := by
  induction text with
  | nil => rfl
  | cons c cs ih => simp [preprocessText, ih]

theorem toLowerC_of_small {c : Char} (h : c.toNat < 65) : toLowerC c = c := by
  rw [toLowerC, if_neg]
  omega

/-- C8: preprocessText maps every character independently: characters that
are neither alphanumeric nor whitespace become exactly one space, whitespace
and digits pass through unchanged, alphabetic characters are lowercased; the
map is length preserving and total (the empty string maps to itself), and
tokenize is exactly whitespace-field splitting of the normalized text with
every token of length at most 2 discarded, preserving order and duplicates. -/
theorem c8_text_pipeline (text : Str) :
    preprocessText text = text.map normChar ∧
    (preprocessText text).length = text.length ∧
    preprocessText [] = [] ∧
    (∀ c, isAlnumC c = false → isSpaceC c = false → normChar c = ' ') ∧
    (∀ c, isSpaceC c = true → normChar c = c) ∧
    (∀ c, isDigitC c = true → normChar c = c) ∧
    (∀ c, isAlphaC c = true → normChar c = toLowerC c) ∧
    tokenize text = (splitWS (preprocessText text)).filter (fun w => 2 < w.length) := by
  refine ⟨preprocessText_eq_map text, ?_, rfl, ?_, ?_, ?_, ?_, rfl⟩
  · rw [preprocessText_eq_map text]
    exact List.length_map text normChar
  · intro c h1 h2
    rw [normChar, if_neg]
    simp [h1, h2]
  · intro c h
    have hsp : c.toNat < 65 := by
      simp [isSpaceC] at h
      omega
    rw [normChar, if_pos (by simp [isAlnumC, h]), toLowerC_of_small hsp]
  · intro c h
    have hsm : c.toNat < 65 := by
      simp [isDigitC] at h
      omega
    rw [normChar, if_pos (by simp [isAlnumC, h]), toLowerC_of_small hsm]
  · intro c h
    rw [normChar, if_pos (by simp [isAlnumC, h])]

set_option maxRecDepth 4000 in
/-- C6 counterexample: a 152-character content whose only match sits near
the end yields a 78-character snippet window, not 150. -/
theorem c6_counterexample :
    150 ≤ longDoc.content.length ∧
    (snippetCore longDoc [str "abc"]).length ≠ 150 := by
  constructor
  · decide
  · decide

/-- C6 amended: the snippet window (excluding ellipses) has length exactly
min(150, contentLength - start) where start is the chosen window start; it is
150 only when at least 150 characters remain after start, and equals the
content length when the window starts at 0 and the content is short. -/
theorem c6_amended_snippet_window (doc : Document) (qts : List Str) :
    (snippetCore doc qts).length
      = min 150 (doc.content.length - snippetStart doc qts) := by
  rw [snippetCore, snippetLen, List.length_take, List.length_drop]
  omega

theorem findChar_not_mem {c : Char} {l : Str} (h : c ∉ l) : findChar c l = none := by
  induction l with
  | nil => rfl
  | cons a l ih =>
    have h1 : ¬ a = c := fun ha => h (by simp [ha])
    have h2 : c ∉ l := fun hc => h (List.mem_cons_of_mem a hc)
    simp [findChar, h1, ih h2]

theorem findChar_append {c : Char} {l : Str} (h : c ∉ l) (r : Str) :
    findChar c (l ++ c :: r) = some l.length := by
  induction l with
  | nil => simp [findChar]
  | cons a l ih =>
    have h1 : ¬ a = c := fun ha => h (by simp [ha])
    have h2 : c ∉ l := fun hc => h (List.mem_cons_of_mem a hc)
    simp [findChar, h1, ih h2]

theorem take_len_append (t r : Str) : (t ++ r).take t.length = t := by
  induction t with
  | nil => rfl
  | cons a t ih => simp

theorem drop_succ_append (t : Str) (c : Char) (r : Str) :
    (t ++ c :: r).drop (t.length + 1) = r := by
  induction t with
  | nil => rfl
  | cons a t ih =>
    have hstep : ((a :: t) ++ c :: r).drop ((a :: t).length + 1)
        = (t ++ c :: r).drop (t.length + 1) := by
      simp [List.length_cons]
    rw [hstep, ih]

theorem splitLine_no_pipe {line : Str} (h : '|' ∉ line) : splitLine line = none := by
  simp [splitLine, findChar_not_mem h]

theorem splitLine_one_pipe {t r : Str} (ht : '|' ∉ t) (hr : '|' ∉ r) :
    splitLine (t ++ '|' :: r) = some (t, r, []) := by
  rw [splitLine, findChar_append ht r]
  simp [drop_succ_append, take_len_append, findChar_not_mem hr]

theorem splitLine_two_pipes {t c : Str} (u : Str) (ht : '|' ∉ t) (hc : '|' ∉ c) :
    splitLine (t ++ '|' :: (c ++ '|' :: u)) = some (t, c, u) := by
  rw [splitLine, findChar_append ht (c ++ '|' :: u)]
  simp [drop_succ_append, take_len_append, findChar_append hc u]

/-- C7: line parsing of the batch loader.  A line with no pipe is skipped;
with exactly one pipe the content is everything after it and the url is
empty; with two or more pipes the content is strictly between the first two
pipes and the url is everything after the second pipe, kept verbatim
(the url part may itself contain pipes); the three-line scenario adds
exactly two documents. -/
theorem c7_load_batch (e : Engine) :
    (∀ line, '|' ∉ line → loadLine e line = e) ∧
    (∀ t r, '|' ∉ t → '|' ∉ r → loadLine e (t ++ '|' :: r) = addDocument e t r []) ∧
    (∀ t c u, '|' ∉ t → '|' ∉ c →
      loadLine e (t ++ '|' :: (c ++ '|' :: u)) = addDocument e t c u) ∧
    (loadBatch emptyEngine
      [str "A|B|C", str "D|E", str "no-delimiter-line"]).documents.length = 2 := by
  refine ⟨?_, ?_, ?_, by decide⟩
  · intro line h
    simp [loadLine, splitLine_no_pipe h]
  · intro t r ht hr
    simp [loadLine, splitLine_one_pipe ht hr]
  · intro t c u ht hc
    simp [loadLine, splitLine_two_pipes u ht hc]

theorem c7_witness :
    loadLine emptyEngine (str "D" ++ '|' :: str "E")
      = addDocument emptyEngine (str "D") (str "E") [] :=
  (c7_load_batch emptyEngine).2.1 (str "D") (str "E") (by decide) (by decide)

theorem reachable_eCat : Reachable eCat :=
  Reachable.add emptyEngine (str "cat dog") (str "the cat sat") [] Reachable.empty

theorem inv_eCat : EngineInv eCat := reachable_inv reachable_eCat

/-- C3: after any sequence of addDocument calls from the empty engine, a
document is in a term's posting set exactly when its recorded term frequency
for that term is positive, the recorded document frequency of every term is
the size of its (duplicate-free) posting set, and the property holds in every
reachable state, so it is preserved by every addDocument. -/
theorem c3_index_consistency (e : Engine) (hr : Reachable e) :
    ∀ d t, (d ∈ II e t ↔ 0 < TF e d t) ∧
      (II e t).Nodup ∧ DF e t = (II e t).length := by
  have h := reachable_inv hr
  exact fun d t => ⟨h.memIff d t, h.nodupPost t, h.dfEq t⟩

theorem c3_witness :
    (0 ∈ II eCat (str "cat") ↔ 0 < TF eCat 0 (str "cat")) ∧
    (II eCat (str "cat")).Nodup ∧
    DF eCat (str "cat") = (II eCat (str "cat")).length :=
  c3_index_consistency eCat reachable_eCat 0 (str "cat")

/-- C5: addDocument appends a document whose identifier is the current
document count (identifiers stay dense, 0..N-1 in insertion order), the new
document's term frequencies count each title token twice and each content
token once, and the document frequency of every term grows by exactly one
when the term occurs anywhere in the combined stream and is unchanged
otherwise. -/
theorem c5_add_document (e : Engine) (hr : Reachable e) (tl c u : Str) :
    (addDocument e tl c u).documents
      = e.documents ++ [⟨e.documents.length, tl, c, u⟩] ∧
    (addDocument e tl c u).documents.map Document.id
      = List.range (addDocument e tl c u).documents.length ∧
    (∀ t, TF (addDocument e tl c u) e.documents.length t
      = 2 * (tokenize tl).count t + (tokenize c).count t) ∧
    (∀ t, DF (addDocument e tl c u) t
      = DF e t + if t ∈ allToks tl c then 1 else 0) := by
  have h := reachable_inv hr
  refine ⟨addDocument_documents e tl c u, (inv_addDocument e tl c u h).idsEq, ?_,
    fun t => DF_addDocument e tl c u t⟩
  intro t
  rw [TF_addDocument, if_pos rfl, TF_fresh e h t]
  rw [allToks, List.count_append, List.count_append]
  omega

theorem c5_witness :
    (addDocument emptyEngine (str "cat dog") (str "the cat sat") []).documents
      = emptyEngine.documents
          ++ [⟨emptyEngine.documents.length, str "cat dog", str "the cat sat", []⟩] ∧
    (addDocument emptyEngine (str "cat dog") (str "the cat sat") []).documents.map Document.id
      = List.range
          (addDocument emptyEngine (str "cat dog") (str "the cat sat") []).documents.length ∧
    (∀ t, TF (addDocument emptyEngine (str "cat dog") (str "the cat sat") [])
        emptyEngine.documents.length t
      = 2 * (tokenize (str "cat dog")).count t + (tokenize (str "the cat sat")).count t) ∧
    (∀ t, DF (addDocument emptyEngine (str "cat dog") (str "the cat sat") []) t
      = DF emptyEngine t
          + if t ∈ allToks (str "cat dog") (str "the cat sat") then 1 else 0) :=
  c5_add_document emptyEngine Reachable.empty (str "cat dog") (str "the cat sat") []

/-- C4: calculateTFIDF returns 0 when the term is absent from the document's
term-frequency row; otherwise it returns the raw count times the natural
logarithm of the total document count over the term's document frequency,
and in a reachable state that document frequency is at least 1, so the
division is never by zero. -/
theorem c4_tfidf_formula (e : Engine) (hr : Reachable e) (t : Str) (d : ℕ) :
    (lookupA t ((lookupA d e.termFrequency).getD []) = none →
      (calculateTFIDF e t d).1 = 0) ∧
    (∀ v, lookupA t ((lookupA d e.termFrequency).getD []) = some v →
      1 ≤ DF e t ∧
      (calculateTFIDF e t d).1
        = (v : ℝ) * Real.log ((e.documents.length : ℝ) / (DF e t : ℝ))) := by
  have h := reachable_inv hr
  constructor
  · intro habs
    have hscrut : lookupA t (getRow d e.termFrequency).1 = none := by
      rw [getRow_fst]
      exact habs
    simp [calculateTFIDF, hscrut]
  · intro v hv
    have hTF : TF e d t = v := by
      rw [TF, hv]
      rfl
    have hTFpos : 0 < TF e d t := by
      rw [hTF]
      cases hrow : lookupA d e.termFrequency with
      | none =>
        rw [hrow] at hv
        simp [lookupA] at hv
      | some row =>
        rw [hrow] at hv
        simp at hv
        exact h.rowPos d row hrow (t, v) (mem_of_lookupA hv)
    have hd : d ∈ II e t := (h.memIff d t).mpr hTFpos
    refine ⟨DF_pos_of_mem e h hd, ?_⟩
    rw [calculateTFIDF_mem e h t d hd, hTF]

theorem c4_witness :
    (lookupA (str "cat") ((lookupA 0 eCat.termFrequency).getD []) = none →
      (calculateTFIDF eCat (str "cat") 0).1 = 0) ∧
    (∀ v, lookupA (str "cat") ((lookupA 0 eCat.termFrequency).getD []) = some v →
      1 ≤ DF eCat (str "cat") ∧
      (calculateTFIDF eCat (str "cat") 0).1
        = (v : ℝ) * Real.log ((eCat.documents.length : ℝ) / (DF eCat (str "cat") : ℝ))) :=
  c4_tfidf_formula eCat reachable_eCat (str "cat") 0

/-- C10: on any reachable engine state, search (including every TF-IDF
lookup it performs) leaves the document store, the inverted index, the
term-frequency table and the document-frequency table unchanged: every
bracket dereference falls on an existing entry. -/
theorem c10_search_frame (e : Engine) (hr : Reachable e) (q : Str) (m : ℤ) :
    (search e q m).2 = e :=
  search_snd e (reachable_inv hr) q m

theorem c10_witness : (search eCat (str "cat") 10).2 = eCat :=
  c10_search_frame eCat reachable_eCat (str "cat") 10

/-- C9: for positive maxResults (within the int range), the search result
list is sorted by non-increasing score and equals the first maxResults
elements of the full sorted result sequence, taken in order. -/
theorem c9_sorted_truncated (e : Engine) (q : Str) (m : ℤ)
    (h0 : 0 < m) (h1 : m < 2 ^ 31) :
    (search e q m).1.Pairwise scoreGE ∧
    (search e q m).1 = (searchAll e q).1.take m.toNat := by
  have hsz : sizeT m = m.toNat := by
    rw [sizeT, Int.emod_eq_of_lt (by omega) (by omega)]
  have hsorted : (searchAll e q).1.Pairwise scoreGE := pairwise_sortBy _
  constructor
  · show (if sizeT m < (searchAll e q).1.length
        then (searchAll e q).1.take (sizeT m) else (searchAll e q).1).Pairwise scoreGE
    by_cases hc : sizeT m < (searchAll e q).1.length
    · rw [if_pos hc]
      exact List.Pairwise.sublist (List.take_sublist _ _) hsorted
    · rw [if_neg hc]
      exact hsorted
  · show (if sizeT m < (searchAll e q).1.length
        then (searchAll e q).1.take (sizeT m) else (searchAll e q).1)
      = (searchAll e q).1.take m.toNat
    rw [hsz]
    by_cases hc : m.toNat < (searchAll e q).1.length
    · rw [if_pos hc]
    · rw [if_neg hc, List.take_of_length_le (by omega)]

theorem c9_witness :
    (0 : ℤ) < 10 ∧ (10 : ℤ) < 2 ^ 31 ∧
    ((search eCat (str "cat") 10).1.Pairwise scoreGE ∧
     (search eCat (str "cat") 10).1 = (searchAll eCat (str "cat")).1.take (10 : ℤ).toNat) :=
  ⟨by norm_num, by norm_num,
   c9_sorted_truncated eCat (str "cat") 10 (by norm_num) (by norm_num)⟩

theorem searchScores_eCat_cat :
    searchScores eCat [str "cat"] = ([(0, (calculateTFIDF eCat (str "cat") 0).1)], eCat) := by
  have hlk : lookupA (str "cat") eCat.invertedIndex = some [0] := by decide
  have hstate : (calculateTFIDF eCat (str "cat") 0).2 = eCat := by
    rw [calculateTFIDF_mem eCat inv_eCat (str "cat") 0 (by decide)]
  show List.foldl tallyTerm ([], eCat) [str "cat"] = _
  rw [List.foldl_cons, List.foldl_nil]
  show tallyTerm ([], eCat) (str "cat") = _
  simp [tallyTerm, hlk, tallyDoc, addTo, hstate]

theorem searchAll_eCat_cat :
    searchAll eCat (str "cat")
      = ([mkResult eCat [str "cat"] (0, (calculateTFIDF eCat (str "cat") 0).1)], eCat) := by
  have htok : tokenize (str "cat") = [str "cat"] := by decide
  show (sortBy cmpRes ((searchScores eCat (tokenize (str "cat"))).1.map
      (mkResult (searchScores eCat (tokenize (str "cat"))).2 (tokenize (str "cat")))),
    (searchScores eCat (tokenize (str "cat"))).2) = _
  rw [htok, searchScores_eCat_cat]
  simp [sortBy, insertBy]

theorem score_eCat_cat : (calculateTFIDF eCat (str "cat") 0).1 = 0 := by
  rw [calculateTFIDF_mem eCat inv_eCat (str "cat") 0 (by decide)]
  have h1 : TF eCat 0 (str "cat") = 3 := by decide
  have h2 : DF eCat (str "cat") = 1 := by decide
  have h3 : eCat.documents.length = 1 := by decide
  show (TF eCat 0 (str "cat") : ℝ)
      * Real.log ((eCat.documents.length : ℝ) / (DF eCat (str "cat") : ℝ)) = 0
  rw [h1, h2, h3]
  norm_num [Real.log_one]

/-- C1 counterexample: on the one-document engine, searching for cat returns
a result whose accumulated score is exactly 0 (tf = 3, idf = ln 1 = 0), so a
document scoring 0 for every query term is not excluded. -/
theorem c1_counterexample :
    ∃ r ∈ (search eCat (str "cat") 10).1, r.score = 0 := by
  have hsz : sizeT 10 = 10 := by decide
  have h10 : (search eCat (str "cat") 10).1
      = [mkResult eCat [str "cat"] (0, (calculateTFIDF eCat (str "cat") 0).1)] := by
    show (if sizeT 10 < (searchAll eCat (str "cat")).1.length
        then (searchAll eCat (str "cat")).1.take (sizeT 10)
        else (searchAll eCat (str "cat")).1) = _
    rw [searchAll_eCat_cat, hsz]
    simp
  rw [h10]
  refine ⟨_, List.mem_singleton_self _, ?_⟩
  show (calculateTFIDF eCat (str "cat") 0).1 = 0
  exact score_eCat_cat

/-- C1 amended: search materializes one result per document appearing in the
posting set of at least one query term, zero accumulated score included; a
query none of whose tokens has a posting returns the empty sequence. -/
theorem c1_amended_materialization (e : Engine) (hr : Reachable e) (q : Str) :
    (∀ x, x ∈ (searchAll e q).1.map SearchResult.documentId ↔
      ∃ t ∈ tokenize q, x ∈ II e t) ∧
    (∀ m, (∀ t ∈ tokenize q, II e t = []) → (search e q m).1 = []) := by
  have h := reachable_inv hr
  refine ⟨searchAll_keys e h q, ?_⟩
  intro m hnone
  have hscores : (searchScores e (tokenize q)).1 = [] := by
    obtain ⟨h1, h2⟩ := searchScores_spec e h (tokenize q)
    cases hsc : (searchScores e (tokenize q)).1 with
    | nil => rfl
    | cons p l =>
      exfalso
      have hx : p.1 ∈ (searchScores e (tokenize q)).1.map Prod.fst := by
        rw [hsc]
        simp
      obtain ⟨t, ht, hmem⟩ := (h2 p.1).mp hx
      rw [hnone t ht] at hmem
      simp at hmem
  have hall : (searchAll e q).1 = [] := by
    show sortBy cmpRes ((searchScores e (tokenize q)).1.map
        (mkResult (searchScores e (tokenize q)).2 (tokenize q))) = []
    rw [hscores]
    rfl
  show (if sizeT m < (searchAll e q).1.length
      then (searchAll e q).1.take (sizeT m) else (searchAll e q).1) = []
  rw [hall]
  simp

theorem c1_witness :
    (∀ x, x ∈ (searchAll eCat (str "cat")).1.map SearchResult.documentId ↔
      ∃ t ∈ tokenize (str "cat"), x ∈ II eCat t) ∧
    (∀ m, (∀ t ∈ tokenize (str "cat"), II eCat t = []) →
      (search eCat (str "cat") m).1 = []) :=
  c1_amended_materialization eCat reachable_eCat (str "cat")

/-- C2 failing input: with maxResults = -1 the size_t cast of the bound is
huge, the resize guard is false, and search returns its full one-element
result list instead of the empty sequence the contract requires. -/
theorem c2_negative_maxresults_untruncated :
    (search eCat (str "cat") (-1)).1.length = 1 := by
  have hsz : ¬ (sizeT (-1) < 1) := by decide
  show (if sizeT (-1) < (searchAll eCat (str "cat")).1.length
      then (searchAll eCat (str "cat")).1.take (sizeT (-1))
      else (searchAll eCat (str "cat")).1).length = 1
  rw [searchAll_eCat_cat]
  simp [hsz]

theorem c8_witness : isSpaceC ' ' = true ∧ normChar ' ' = ' ' :=
  ⟨by decide, (c8_text_pipeline []).2.2.2.2.1 ' ' (by decide)⟩
